import Mathlib

/-!
Shallow embedding of the RUSH News Stream core algorithms:

* the trend merge / dedupe / per-category trim block of
  `ingest_x_trending_news` in `src/ingest_x_only.py` (lines 458-502);
* the headline normalizer, keyword extractor, story clustering engine and
  the `/trending_topics` read endpoint in `src/main.py`;
* the `/purge_trends` retention endpoint in `src/main.py`.

Python `dict`s keyed by the dedup key are modelled as association lists in
insertion order (CPython dicts preserve insertion order and keep a key's
position when its value is replaced); Python's stable `sorted(...,
reverse=True)` is modelled by a stable descending insertion sort; Python
string comparison is Lean's lexicographic `String` order; `None`-able
fields are `Option`s, and the Python idiom `x or d` on strings is
`pyOrStr`.  The `max()` call in `cluster_score`, which raises `ValueError`
on an empty sequence, is modelled by `Option`: `none` marks the raised
exception.
-/

namespace Rush

/-- Python `x or d` for an optional string: `None` and `""` fall through to
the default. -/
def pyOrStr (o : Option String) (d : String) : String :=
  match o with
  | none => d
  | some s => if s = "" then d else s

/-- ASCII whitespace, the characters Python's `str.strip` and `\s` treat as
spacing on the ASCII inputs this system handles. -/
def isWs (c : Char) : Bool :=
  c = ' ' || c = '\t' || c = '\n' || c = '\r'

/-- Python `str.strip()`: drop leading and trailing whitespace.  Defined by
structural recursion on the character list so that concrete instances
evaluate inside the kernel. -/
def pyStrip (s : String) : String :=
  ⟨((s.data.dropWhile isWs).reverse.dropWhile isWs).reverse⟩

/-- Python `str.lower()` on the ASCII inputs this system handles. -/
def pyLower (s : String) : String :=
  ⟨s.data.map Char.toLower⟩

/-- Lexicographic strictly-less-than on code-point sequences, the order
Python uses to compare strings. -/
def ltN : List Nat → List Nat → Bool
  | [], [] => false
  | [], _ :: _ => true
  | _ :: _, [] => false
  | a :: as, b :: bs =>
      if a < b then true else if b < a then false else ltN as bs

/-- Python `s1 < s2` on strings: lexicographic by code point. -/
def strLt (a b : String) : Bool :=
  ltN (a.data.map Char.toNat) (b.data.map Char.toNat)

/-- A Trend record as built by `build_trend_object` / stored by the backend;
only the fields the merge block reads, plus `id` and `summary` as payload
distinguishing records. -/
structure Trend where
  id : String
  keyword : Option String
  category : Option String
  trend_type : Option String
  score : Nat
  summary : Option String
  first_seen_at : Option String
  updated_at : Option String
  deriving DecidableEq, Repr

/-- `norm_headline` from `ingest_x_trending_news`:
`(h or "").strip().lower()`. -/
def norm_headline (h : Option String) : String :=
  pyLower (pyStrip (pyOrStr h ""))

/-- The merge dedup key: `(norm_headline(t.get("keyword")), t.get("category") or "")`. -/
def keyOf (t : Trend) : String × String :=
  (norm_headline t.keyword, pyOrStr t.category "")

/-- `sort_key` / the timestamp used for collision resolution:
`t.get("first_seen_at") or t.get("updated_at") or ""`. -/
def tsOf (t : Trend) : String :=
  pyOrStr t.first_seen_at (pyOrStr t.updated_at "")

/-- The category a trend is partitioned under: `t.get("category") or ""`. -/
def catOf (t : Trend) : String :=
  pyOrStr t.category ""

/-- Replace the value stored at key `k` by `t` when `t`'s timestamp is
strictly greater (`if new_ts > existing_ts`), keeping the entry position. -/
def updateAt (k : String × String) (t : Trend) :
    List ((String × String) × Trend) → List ((String × String) × Trend)
  | [] => []
  | (k', v) :: rest =>
      if k' = k then
        (if strLt (tsOf v) (tsOf t) then (k', t) else (k', v)) :: rest
      else
        (k', v) :: updateAt k t rest

/-- One iteration of the `for t in combined` dedupe loop on the ordered
dictionary `deduped_by_key`. -/
def dedupeInsert (m : List ((String × String) × Trend)) (t : Trend) :
    List ((String × String) × Trend) :=
  if m.any (fun p => p.1 = keyOf t) then updateAt (keyOf t) t m
  else m ++ [(keyOf t, t)]

/-- The full dedupe loop: fold `dedupeInsert` over the combined list. -/
def dedupe (l : List Trend) : List ((String × String) × Trend) :=
  l.foldl dedupeInsert []

/-- `deduped_by_key.values()` for the combined `existing ++ incoming`
sequence: the key-surviving trends in dictionary insertion order. -/
def survivors (existing incoming : List Trend) : List Trend :=
  (dedupe (existing ++ incoming)).map Prod.snd

/-- `per_category[cat]`: the survivors carrying exactly category `c`, in
order.  The code only materialises the four preset buckets. -/
def perCat (c : String) (l : List Trend) : List Trend :=
  l.filter (fun t => catOf t = c)

/-- Stable descending insertion: `a` is placed before the first element it
is not strictly below, so equal keys keep their original relative order,
matching Python's stable `sorted(..., reverse=True)`. -/
def insertDescBy {α : Type} (lt : α → α → Bool) (a : α) : List α → List α
  | [] => [a]
  | x :: xs => if lt a x then x :: insertDescBy lt a xs else a :: x :: xs

/-- Stable descending sort by the boolean strict order `lt`. -/
def sortDescBy {α : Type} (lt : α → α → Bool) : List α → List α
  | [] => []
  | a :: rest => insertDescBy lt a (sortDescBy lt rest)

/-- Strictly-below test for trends: `sort_key` compared as ISO strings. -/
def trendLt (a b : Trend) : Bool :=
  strLt (tsOf a) (tsOf b)

/-- The per-category cap: `3 if cat == "For You" else 12`. -/
def capOf (c : String) : Nat :=
  if c = "For You" then 3 else 12

/-- One category's contribution to `final_trends`: sort descending by
`sort_key`, truncate to the cap. -/
def trimCat (c : String) (l : List Trend) : List Trend :=
  (sortDescBy trendLt (perCat c l)).take (capOf c)

/-- The four preset bucket keys of `per_category`, in insertion order. -/
def knownCats : List String :=
  ["For You", "News", "Entertainment", "Sports"]

/-- Assemble `final_trends` from the deduped survivors: partition into the
four preset category buckets (any other category is dropped), sort each
descending by timestamp, truncate to the cap, concatenate in bucket
order. -/
def assemble (l : List Trend) : List Trend :=
  trimCat "For You" l ++ trimCat "News" l ++ trimCat "Entertainment" l ++ trimCat "Sports" l

/-- The merge / dedupe / trim block of `ingest_x_trending_news`
(src/ingest_x_only.py lines 458-502): combined = existing ++ new_trends,
dedupe by key with newer-wins, partition, sort, cap, concatenate. -/
def mergeTrends (existing incoming : List Trend) : List Trend :=
  assemble (survivors existing incoming)

/-! ### The Normalizer and keyword extractor of `src/main.py` -/

/-- `string.punctuation`: the 32 ASCII punctuation characters, by code
point (33-47, 58-64, 91-96, 123-126). -/
def isPunct (c : Char) : Bool :=
  (33 ≤ c.toNat && c.toNat ≤ 47) || (58 ≤ c.toNat && c.toNat ≤ 64) ||
  (91 ≤ c.toNat && c.toNat ≤ 96) || (123 ≤ c.toNat && c.toNat ≤ 126)

/-- `text.translate(str.maketrans("", "", string.punctuation))`: delete all
punctuation characters. -/
def stripPunct (s : String) : String :=
  ⟨s.data.filter (fun c => !(isPunct c))⟩

/-- Python `str.split()` with no separator: the maximal nonempty runs of
non-whitespace characters. -/
def pyWordsAux (cur : List Char) : List Char → List String
  | [] => if cur = [] then [] else [String.mk cur.reverse]
  | c :: rest =>
      if isWs c then
        if cur = [] then pyWordsAux [] rest
        else String.mk cur.reverse :: pyWordsAux [] rest
      else pyWordsAux (c :: cur) rest

/-- Python `str.split()` on a string. -/
def pyWords (s : String) : List String :=
  pyWordsAux [] s.data

/-- Join words with single spaces, the result of
`re.sub(r"\s+", " ", text).strip()` after splitting. -/
def joinSp : List String → String
  | [] => ""
  | [w] => w
  | w :: ws => w ++ " " ++ joinSp ws

/-- `_normalize_headline` (src/main.py lines 359-363): lowercase, delete
punctuation, collapse whitespace runs to single spaces, trim. -/
def normalize_headline (s : String) : String :=
  joinSp (pyWords (stripPunct (pyLower s)))

/-- The `STOPWORDS` set of src/main.py. -/
def STOPWORDS : List String :=
  ["the", "a", "an", "of", "in", "on", "for", "to", "and", "or", "at", "by",
   "with", "from", "as", "is", "are", "was", "were", "be", "this", "that",
   "it", "its", "after", "over", "into", "about", "new"]

/-- `_headline_keywords` (src/main.py lines 366-372): the token set of the
normalized headline minus stopwords and tokens of length ≤ 2.  The Python
`set` is modelled as a duplicate-free list; the claims only use membership,
emptiness and intersection size, which do not depend on order. -/
def headline_keywords (s : String) : List String :=
  ((pyWords (normalize_headline s)).filter
    (fun t => !(STOPWORDS.contains t) && 2 < t.data.length)).dedup

/-- `len(kw.intersection(rep_kw))`: the number of distinct shared tokens
(exact when the first argument is duplicate-free, as `headline_keywords`
always is). -/
def overlap (a b : List String) : Nat :=
  (a.filter (fun x => b.contains x)).length

/-! ### The Story Clustering Engine of `src/main.py` -/

/-- A Story row as read by `/trending_topics`: only the fields the
clustering engine touches. -/
structure Story where
  id : String
  headline : Option String
  source_name : Option String
  is_breaking : Bool
  first_seen_at : Option String
  deriving DecidableEq, Repr

/-- The keyword set of a story: `_headline_keywords(story.headline or "")`. -/
def storyKw (s : Story) : List String :=
  headline_keywords (pyOrStr s.headline "")

/-- Membership test against a cluster's representative (its first-added
member): `len(kw & rep_kw) >= 2`. -/
def matchesCluster (s : Story) (c : List Story) : Bool :=
  match c with
  | [] => false
  | rep :: _ => 2 ≤ overlap (storyKw s) (storyKw rep)

/-- Append the story to the first matching cluster, if any. -/
def addToFirst (s : Story) : List (List Story) → Option (List (List Story))
  | [] => none
  | c :: cs =>
      if matchesCluster s c then some ((c ++ [s]) :: cs)
      else (addToFirst s cs).map (fun cs' => c :: cs')

/-- The index of the first open cluster, in creation order, whose
representative shares at least two keywords with the story. -/
def firstMatchIdx (s : Story) : List (List Story) → Option Nat
  | [] => none
  | c :: cs =>
      if matchesCluster s c then some 0
      else (firstMatchIdx s cs).map (fun i => i + 1)

/-- One iteration of the greedy clustering loop of `_cluster_stories`:
skip empty-keyword stories, else join the first matching cluster, else
open a new singleton cluster. -/
def placeStory (cls : List (List Story)) (s : Story) : List (List Story) :=
  if (storyKw s).isEmpty then cls
  else
    match addToFirst s cls with
    | some cls' => cls'
    | none => cls ++ [[s]]

/-- The full greedy assignment pass of `_cluster_stories`
(src/main.py lines 375-395). -/
def assignClusters (ss : List Story) : List (List Story) :=
  ss.foldl placeStory []

/-- `clusters = [c for c in clusters if len(c) > 1]`: drop singleton
clusters. -/
def keptClusters (ss : List Story) : List (List Story) :=
  (assignClusters ss).filter (fun c => 1 < c.length)

/-- Python `max(...)` over a nonempty tail, first maximum wins. -/
def pyMaxFrom (m : String) : List String → String
  | [] => m
  | x :: xs => pyMaxFrom (if strLt m x then x else m) xs

/-- Python `max(iterable)` on strings: `none` models the `ValueError`
raised on an empty sequence. -/
def pyMax : List String → Option String
  | [] => none
  | x :: xs => some (pyMaxFrom x xs)

/-- `max(s.first_seen_at for s in c if s.first_seen_at is not None)`:
the latest present timestamp of a cluster, `none` when every member's
`first_seen_at` is absent (the `ValueError` case). -/
def clusterTs (c : List Story) : Option String :=
  pyMax (c.filterMap Story.first_seen_at)

/-- `cluster_score`: the `(size, latest)` sort key, `none` modelling the
raised `ValueError`. -/
def clusterScore (c : List Story) : Option (Nat × String) :=
  (clusterTs c).map (fun m => (c.length, m))

/-- Python `<` on `(int, datetime)` tuples: lexicographic. -/
def scoreLt (a b : Nat × String) : Bool :=
  a.1 < b.1 || (a.1 == b.1 && strLt a.2 b.2)

/-- Strictly-below test between clusters by their `cluster_score`,
meaningful under the guard that every score is present. -/
def clusterLt (a b : List Story) : Bool :=
  scoreLt (a.length, (clusterTs a).getD "") (b.length, (clusterTs b).getD "")

/-- `_cluster_stories` (src/main.py lines 375-405) in full: greedy
assignment, singleton filter, then `clusters.sort(key=cluster_score,
reverse=True)`.  Python's `sort` computes every key before comparing, so
the sort raises (modelled by `none`) exactly when some kept cluster has no
member with a timestamp. -/
def cluster_stories (ss : List Story) : Option (List (List Story)) :=
  let ks := keptClusters ss
  if ks.all (fun c => (clusterTs c).isSome) then some (sortDescBy clusterLt ks)
  else none

/-- Sort key for individual stories: `s.first_seen_at or datetime.min`,
with `""` playing `datetime.min` (it is below every ISO timestamp). -/
def tsS (s : Story) : String :=
  pyOrStr s.first_seen_at ""

/-- Python `max(cluster, key=...)`, first maximum wins. -/
def pyMaxBy (m : Story) : List Story → Story
  | [] => m
  | x :: xs => pyMaxBy (if strLt (tsS m) (tsS x) then x else m) xs

/-- `_cluster_title` (src/main.py lines 408-420): the headline and keyword
set of the most-recently-seen member. -/
def cluster_title (c : List Story) : String × List String :=
  match c with
  | [] => ("Trending Topic", [])
  | h :: t =>
      let mr := pyMaxBy h t
      let title := pyOrStr mr.headline "Trending Topic"
      (title, headline_keywords title)

/-! ### The `/trending_topics` read endpoint of `src/main.py` -/

/-- The per-story payload each bucket emits. -/
structure StorySummary where
  id : String
  headline : Option String
  source_name : Option String
  first_seen_at : Option String
  deriving DecidableEq, Repr

/-- An entry of the endpoint's result list. -/
structure Bucket where
  title : String
  keywords : List String
  stories : List StorySummary
  deriving DecidableEq, Repr

/-- The display dedup key:
`_normalize_headline(headline) + "::" + (source_name or "").strip().lower()`. -/
def displayKeyS (s : Story) : String :=
  normalize_headline (pyOrStr s.headline "") ++ "::" ++
    pyLower (pyStrip (pyOrStr s.source_name ""))

/-- The same display key read off the emitted summary. -/
def displayKeySum (s : StorySummary) : String :=
  normalize_headline (pyOrStr s.headline "") ++ "::" ++
    pyLower (pyStrip (pyOrStr s.source_name ""))

/-- The seen-set dedup loop run inside every bucket: keep a story iff its
display key has not appeared earlier in the same bucket. -/
def dedupDisplayGo (seen : List String) : List Story → List Story
  | [] => []
  | s :: rest =>
      if seen.contains (displayKeyS s) then dedupDisplayGo seen rest
      else s :: dedupDisplayGo (displayKeyS s :: seen) rest

/-- Bucket-level display dedup, first occurrence wins. -/
def dedupDisplay (l : List Story) : List Story :=
  dedupDisplayGo [] l

/-- Projection to the emitted per-story dict. -/
def toSummary (s : Story) : StorySummary :=
  ⟨s.id, s.headline, s.source_name, s.first_seen_at⟩

/-- Strictly-below test for the breaking-bucket sort key. -/
def storyLt (a b : Story) : Bool :=
  strLt (tsS a) (tsS b)

/-- The `"Breaking News"` bucket: breaking stories sorted most-recent
first, then display-deduplicated. -/
def breakingBucket (breaking : List Story) : Bucket :=
  ⟨"Breaking News", [], (dedupDisplay (sortDescBy storyLt breaking)).map toSummary⟩

/-- One primary cluster's bucket: title and keywords from
`_cluster_title`, members display-deduplicated. -/
def clusterBucket (c : List Story) : Bucket :=
  ⟨(cluster_title c).1, (cluster_title c).2, (dedupDisplay c).map toSummary⟩

/-- The `"Other News"` bucket over the pooled below-limit cluster
members. -/
def otherBucket (raw : List Story) : Bucket :=
  ⟨"Other News", [], (dedupDisplay raw).map toSummary⟩

/-- The stories pooled into `"Other News"`: the members of the clusters
ranked below `limit_clusters`, cluster by cluster in rank order. -/
def otherStoriesRaw (limit : Nat) (sorted : List (List Story)) : List Story :=
  (sorted.drop limit).flatten

/-- `list_trending_topics` (src/main.py lines 423-538) on an
already-fetched story batch: partition off breaking stories, cluster the
rest, emit the breaking bucket (when nonempty), the top `limit_clusters`
cluster buckets and the `"Other News"` bucket (when nonempty).  `none`
models the `ValueError` escaping `_cluster_stories`. -/
def list_trending_topics (limit : Nat) (stories : List Story) :
    Option (List Bucket) :=
  if stories = [] then some []
  else
    let breaking := stories.filter Story.is_breaking
    let rest := stories.filter (fun s => !s.is_breaking)
    match cluster_stories rest with
    | none => none
    | some sorted =>
        let top := sorted.take limit
        let otherRaw := otherStoriesRaw limit sorted
        some ((if breaking.isEmpty then [] else [breakingBucket breaking]) ++
          top.map clusterBucket ++
          (if otherRaw.isEmpty then [] else [otherBucket otherRaw]))

/-! ### The `/purge_trends` retention endpoint of `src/main.py` -/

/-- `purge_trends` (src/main.py lines 173-203) on the fetched rows of the
requested `trend_type`, already in the query's descending `first_seen_at`
order: keep the first `keep_latest`, delete every row whose id is not
among the kept ids.  Returns `(kept, deleted)`. -/
def purge_trends (rows : List Trend) (keep_latest : Nat) :
    List Trend × List Trend :=
  let toKeep := rows.take keep_latest
  let keepIds := toKeep.map Trend.id
  (toKeep, rows.filter (fun t => !(keepIds.contains t.id)))

/-! ### Spec-side identity key and concrete records used in the development -/

/-- The identity key as §4.2 of the spec words it: the Normalizer's
`normalize` (which is `_normalize_headline` of src/main.py: lowercase,
punctuation-stripped, whitespace-collapsed) applied to the keyword, paired
with the category.  The ingestion merge block instead keys on
`norm_headline`, which only trims and lowercases. -/
def specIdentityKey (t : Trend) : String × String :=
  (normalize_headline (pyOrStr t.keyword ""), pyOrStr t.category "")

/-- Existing-side trend of the end-to-end collision example. -/
def exT1 : Trend :=
  ⟨"t1", some "Election Results", some "News", some "x_news", 1,
    some "old payload", some "2024-01-01T00:00:00", none⟩

/-- Incoming-side trend with the same dedup key and a strictly newer
timestamp. -/
def exT2 : Trend :=
  ⟨"t2", some "election results", some "News", some "x_news", 2,
    some "new payload", some "2024-01-02T00:00:00", none⟩

/-- Keyword that differs from `exUS2` only by punctuation. -/
def exUS1 : Trend :=
  ⟨"u1", some "US Open", some "News", some "x_news", 1, none,
    some "2024-01-01T00:00:00", none⟩

/-- Keyword equal to `exUS1` under the spec Normalizer but distinct under
the merge block's trim-and-lowercase key. -/
def exUS2 : Trend :=
  ⟨"u2", some "U.S. Open", some "News", some "x_news", 2, none,
    some "2024-01-02T00:00:00", none⟩

/-- A trend whose category is the spec enum's `"Trending"`, which the merge
block has no bucket for. -/
def exTrending : Trend :=
  ⟨"g1", some "Some Viral Topic", some "Trending", some "x_news", 1, none,
    some "2024-01-01T00:00:00", none⟩

/-- Newer trend row for the purge example. -/
def exRow1 : Trend :=
  ⟨"r1", some "kw one", some "News", some "x_news", 1, none,
    some "2024-01-02T00:00:00", none⟩

/-- Older trend row for the purge example. -/
def exRow2 : Trend :=
  ⟨"r2", some "kw two", some "News", some "x_news", 2, none,
    some "2024-01-01T00:00:00", none⟩

/-- First story of the spec's clustering overlap example. -/
def exSen1 : Story :=
  ⟨"s1", some "Senate Passes New Budget Bill", some "AP", false,
    some "2024-01-01T00:00:03"⟩

/-- Second story of the spec's clustering overlap example; shares the
keywords senate, budget, bill with `exSen1`. -/
def exSen2 : Story :=
  ⟨"s2", some "Senate approves budget bill in close vote", some "Reuters",
    false, some "2024-01-01T00:00:02"⟩

/-- Third story of the spec's clustering overlap example; shares no keyword
with `exSen1`. -/
def exLocal : Story :=
  ⟨"s3", some "Local Team Wins Championship Game", some "AP", false,
    some "2024-01-01T00:00:01"⟩

/-- Members of the three-cluster batch exercising the Other News pooling:
cluster keywords alpha/bravo. -/
def exC1 : Story :=
  ⟨"c1", some "alpha bravo one heads", some "src", false,
    some "2024-01-01T00:00:01"⟩

def exC2 : Story :=
  ⟨"c2", some "alpha bravo two heads", some "src", false,
    some "2024-01-01T00:00:04"⟩

def exC3 : Story :=
  ⟨"c3", some "alpha bravo three heads", some "src", false,
    some "2024-01-01T00:00:07"⟩

/-- Cluster keywords delta/echo. -/
def exA1 : Story :=
  ⟨"a1", some "delta echo red", some "src", false,
    some "2024-01-01T00:00:02"⟩

def exA2 : Story :=
  ⟨"a2", some "delta echo blue", some "src", false,
    some "2024-01-01T00:00:06"⟩

/-- Cluster keywords foxtrot/golf; overlaps each other cluster in at most
one keyword. -/
def exB1 : Story :=
  ⟨"b1", some "foxtrot golf red", some "src", false,
    some "2024-01-01T00:00:03"⟩

def exB2 : Story :=
  ⟨"b2", some "foxtrot golf green", some "src", false,
    some "2024-01-01T00:00:05"⟩

/-- The interleaved input batch: clusters alpha (3 members), delta and
foxtrot (2 each) are created in that order but their members alternate. -/
def exBatch : List Story :=
  [exC1, exA1, exB1, exC2, exA2, exB2, exC3]

/-- Story carrying the same display key as `exDup2`. -/
def exDup1 : Story :=
  ⟨"d1", some "Senate Passes New Budget Bill", some "AP", false,
    some "2024-01-01T00:00:02"⟩

/-- Same normalized headline (extra spaces and punctuation) and same
source up to trim and case as `exDup1`. -/
def exDup2 : Story :=
  ⟨"d2", some "Senate  Passes New Budget Bill!", some "ap ", false,
    some "2024-01-01T00:00:01"⟩

/-- Clusterable story with an absent `first_seen_at`. -/
def exNone1 : Story :=
  ⟨"n1", some "Senate Passes New Budget Bill", some "AP", false, none⟩

/-- Second absent-timestamp story sharing ≥ 2 keywords with `exNone1`. -/
def exNone2 : Story :=
  ⟨"n2", some "Senate approves budget bill in close vote", some "BBC",
    false, none⟩

/-- Punctuation-only headline: empty keyword set. -/
def exPunct : Story :=
  ⟨"p1", some "?!? ...", some "AP", false, some "2024-01-01T00:00:01"⟩

/-- Absent headline: empty keyword set. -/
def exNoHl : Story :=
  ⟨"p2", none, some "AP", false, some "2024-01-01T00:00:01"⟩

/-! ### Order lemmas for the lexicographic comparisons -/

theorem ltN_asymm : ∀ {a b : List Nat}, ltN a b = true → ltN b a = false
  | [], [], h => by simp [ltN] at h
  | [], _ :: _, _ => by simp [ltN]
  | _ :: _, [], h => by simp [ltN] at h
  | x :: xs, y :: ys, h => by
      simp only [ltN] at h ⊢
      split_ifs at h ⊢ <;> first | rfl | omega | exact ltN_asymm h

theorem ltN_false_trans : ∀ {a b c : List Nat},
    ltN a b = false → ltN b c = false → ltN a c = false
  | [], b, c, hab, hbc => by
      cases b with
      | nil => exact hbc
      | cons y ys => simp [ltN] at hab
  | _ :: _, b, [], _, _ => by simp [ltN]
  | x :: xs, b, z :: zs, hab, hbc => by
      cases b with
      | nil => simp [ltN] at hbc
      | cons y ys =>
          simp only [ltN] at hab hbc ⊢
          split_ifs at hab hbc ⊢ <;>
            first | rfl | omega | exact ltN_false_trans hab hbc

theorem strLt_asymm {a b : String} (h : strLt a b = true) : strLt b a = false :=
  ltN_asymm h

theorem strLt_false_trans {a b c : String} (hab : strLt a b = false)
    (hbc : strLt b c = false) : strLt a c = false :=
  ltN_false_trans hab hbc

theorem strLt_irrefl (a : String) : strLt a a = false := by
  have : ∀ l : List Nat, ltN l l = false := by
    intro l
    induction l with
    | nil => rfl
    | cons x xs ih => simp [ltN, ih]
  exact this _

/-! ### Generic facts about the stable descending insertion sort -/

theorem insertDescBy_perm {α : Type} (lt : α → α → Bool) (a : α) :
    ∀ l : List α, (insertDescBy lt a l).Perm (a :: l)
  | [] => List.Perm.refl _
  | x :: xs => by
      by_cases h : lt a x
      · simpa [insertDescBy, h] using
          ((insertDescBy_perm lt a xs).cons x).trans (List.Perm.swap a x xs)
      · simp [insertDescBy, h]

theorem sortDescBy_perm {α : Type} (lt : α → α → Bool) :
    ∀ l : List α, (sortDescBy lt l).Perm l
  | [] => List.Perm.refl _
  | a :: rest =>
      (insertDescBy_perm lt a (sortDescBy lt rest)).trans
        ((sortDescBy_perm lt rest).cons a)

theorem mem_sortDescBy {α : Type} {lt : α → α → Bool} {a : α} {l : List α} :
    a ∈ sortDescBy lt l ↔ a ∈ l :=
  (sortDescBy_perm lt l).mem_iff

theorem mem_insertDescBy {α : Type} {lt : α → α → Bool} {a b : α}
    {l : List α} (h : b ∈ insertDescBy lt a l) : b = a ∨ b ∈ l := by
  have := (insertDescBy_perm lt a l).mem_iff.mp h
  simpa using this

theorem insertDescBy_pairwise {α : Type} {lt : α → α → Bool}
    (asymm : ∀ x y : α, lt x y = true → lt y x = false)
    (ftrans : ∀ x y z : α, lt x y = false → lt y z = false → lt x z = false)
    {a : α} : ∀ {l : List α},
    l.Pairwise (fun x y => lt x y = false) →
    (insertDescBy lt a l).Pairwise (fun x y => lt x y = false)
  | [], _ => by simp [insertDescBy]
  | x :: xs, hp => by
      rcases List.pairwise_cons.mp hp with ⟨hx, hxs⟩
      by_cases h : lt a x = true
      · have htail := insertDescBy_pairwise asymm ftrans (a := a) hxs
        have hhead : ∀ b ∈ insertDescBy lt a xs, lt x b = false := by
          intro b hb
          rcases mem_insertDescBy hb with rfl | hb'
          · exact asymm _ _ h
          · exact hx b hb'
        simpa [insertDescBy, h] using List.pairwise_cons.mpr ⟨hhead, htail⟩
      · have h' : lt a x = false := by simpa using h
        have hhead : ∀ b ∈ x :: xs, lt a b = false := by
          intro b hb
          rcases List.mem_cons.mp hb with rfl | hb'
          · exact h'
          · exact ftrans _ _ _ h' (hx b hb')
        simpa [insertDescBy, h'] using List.pairwise_cons.mpr ⟨hhead, hp⟩

theorem sortDescBy_pairwise {α : Type} {lt : α → α → Bool}
    (asymm : ∀ x y : α, lt x y = true → lt y x = false)
    (ftrans : ∀ x y z : α, lt x y = false → lt y z = false → lt x z = false) :
    ∀ l : List α, (sortDescBy lt l).Pairwise (fun x y => lt x y = false)
  | [] => by simp [sortDescBy]
  | a :: rest =>
      insertDescBy_pairwise asymm ftrans (sortDescBy_pairwise asymm ftrans rest)

theorem insertDescBy_of_head {α : Type} {lt : α → α → Bool} {a : α} :
    ∀ {l : List α}, (∀ b ∈ l, lt a b = false) → insertDescBy lt a l = a :: l
  | [], _ => rfl
  | x :: xs, h => by
      have := h x (List.mem_cons_self x xs)
      simp [insertDescBy, this]

theorem sortDescBy_of_pairwise {α : Type} {lt : α → α → Bool} :
    ∀ {l : List α}, l.Pairwise (fun x y => lt x y = false) → sortDescBy lt l = l
  | [], _ => rfl
  | a :: rest, hp => by
      rcases List.pairwise_cons.mp hp with ⟨ha, hrest⟩
      rw [sortDescBy, sortDescBy_of_pairwise hrest, insertDescBy_of_head ha]

/-! ### Invariants of the dedupe map -/

/-- The invariant the `deduped_by_key` dictionary maintains: its keys are
pairwise distinct and every stored trend sits under its own key. -/
def goodMap (m : List ((String × String) × Trend)) : Prop :=
  (m.map Prod.fst).Nodup ∧ ∀ p ∈ m, keyOf p.2 = p.1

theorem updateAt_map_fst (k : String × String) (t : Trend) :
    ∀ m, (updateAt k t m).map Prod.fst = m.map Prod.fst
  | [] => rfl
  | (k', v) :: rest => by
      by_cases h : k' = k
      · simp only [updateAt, if_pos h]
        split <;> simp
      · simp [updateAt, h, updateAt_map_fst k t rest]

theorem updateAt_key {k : String × String} {t : Trend} (hk : keyOf t = k) :
    ∀ {m}, (∀ p ∈ m, keyOf p.2 = p.1) → ∀ p ∈ updateAt k t m, keyOf p.2 = p.1
  | [], _, p, hp => by simp [updateAt] at hp
  | (k', v) :: rest, hm, p, hp => by
      by_cases h : k' = k
      · simp only [updateAt, if_pos h] at hp
        rcases List.mem_cons.mp hp with rfl | hp'
        · split
          · simpa [h] using hk
          · exact hm (k', v) (List.mem_cons_self _ _)
        · exact hm p (List.mem_cons_of_mem _ hp')
      · simp only [updateAt, if_neg h] at hp
        rcases List.mem_cons.mp hp with rfl | hp'
        · exact hm _ (List.mem_cons_self _ _)
        · exact updateAt_key hk (fun q hq => hm q (List.mem_cons_of_mem _ hq)) p hp'

theorem dedupeInsert_good {m : List ((String × String) × Trend)} {t : Trend}
    (h : goodMap m) : goodMap (dedupeInsert m t) := by
  rcases h with ⟨hnd, hkeys⟩
  by_cases hin : m.any (fun p => p.1 = keyOf t) = true
  · constructor
    · simpa [dedupeInsert, hin, updateAt_map_fst] using hnd
    · intro p hp
      simp only [dedupeInsert, hin, if_true] at hp
      exact updateAt_key rfl hkeys p hp
  · have hin' : m.any (fun p => p.1 = keyOf t) = false := Bool.eq_false_iff.mpr hin
    have hnotin : keyOf t ∉ m.map Prod.fst := by
      intro hmem
      rcases List.mem_map.mp hmem with ⟨p, hp, hfst⟩
      have : m.any (fun p => p.1 = keyOf t) = true :=
        List.any_eq_true.mpr ⟨p, hp, by simp [hfst]⟩
      rw [this] at hin'
      cases hin'
    constructor
    · have hd : (m.map Prod.fst).Disjoint [keyOf t] := by
        intro k hk1 hk2
        simp only [List.mem_singleton] at hk2
        subst hk2
        exact hnotin hk1
      have : ((m.map Prod.fst) ++ [keyOf t]).Nodup :=
        hnd.append (List.nodup_singleton _) hd
      simpa [dedupeInsert, hin'] using this
    · intro p hp
      simp only [dedupeInsert, hin', if_false] at hp
      rcases List.mem_append.mp hp with hp' | hp'
      · exact hkeys p hp'
      · simp only [List.mem_singleton] at hp'
        subst hp'
        rfl

theorem foldl_dedupeInsert_good :
    ∀ (l : List Trend) (m : List ((String × String) × Trend)),
      goodMap m → goodMap (l.foldl dedupeInsert m)
  | [], _, h => h
  | _ :: ts, _, h => foldl_dedupeInsert_good ts _ (dedupeInsert_good h)

theorem dedupe_good (l : List Trend) : goodMap (dedupe l) :=
  foldl_dedupeInsert_good l [] ⟨List.nodup_nil, by simp⟩

/-- The key-surviving trends of a merge have pairwise distinct dedup
keys. -/
theorem survivors_keys_nodup (existing incoming : List Trend) :
    ((survivors existing incoming).map keyOf).Nodup := by
  rcases dedupe_good (existing ++ incoming) with ⟨hnd, hkeys⟩
  rw [survivors, List.map_map]
  have heq : (dedupe (existing ++ incoming)).map (keyOf ∘ Prod.snd) =
      (dedupe (existing ++ incoming)).map Prod.fst :=
    List.map_congr_left (fun p hp => hkeys p hp)
  rw [heq]
  exact hnd

/-! ### Per-category partition and trim lemmas -/

theorem mem_perCat {t : Trend} {c : String} {l : List Trend} :
    t ∈ perCat c l ↔ t ∈ l ∧ catOf t = c := by
  simp [perCat]

theorem perCat_sublist (c : String) (l : List Trend) : List.Sublist (perCat c l) l :=
  List.filter_sublist l

theorem mem_trimCat {t : Trend} {c : String} {l : List Trend}
    (h : t ∈ trimCat c l) : t ∈ l ∧ catOf t = c := by
  have h1 : t ∈ sortDescBy trendLt (perCat c l) :=
    List.mem_of_mem_take h
  exact mem_perCat.mp (mem_sortDescBy.mp h1)

theorem trimCat_keys_nodup {l : List Trend} (h : (l.map keyOf).Nodup)
    (c : String) : ((trimCat c l).map keyOf).Nodup := by
  have h1 : ((perCat c l).map keyOf).Nodup :=
    ((perCat_sublist c l).map keyOf).nodup h
  have h2 : ((sortDescBy trendLt (perCat c l)).map keyOf).Nodup :=
    (((sortDescBy_perm trendLt (perCat c l)).map keyOf).nodup_iff).mpr h1
  exact ((List.take_sublist _ _).map keyOf).nodup h2

theorem trimCat_key_snd {k : String × String} {c : String} {l : List Trend}
    (h : k ∈ (trimCat c l).map keyOf) : k.2 = c := by
  rcases List.mem_map.mp h with ⟨t, ht, rfl⟩
  exact (mem_trimCat ht).2

theorem assemble_keys_nodup {l : List Trend} (h : (l.map keyOf).Nodup) :
    ((assemble l).map keyOf).Nodup := by
  have d : ∀ c₁ c₂ : String, c₁ ≠ c₂ →
      ((trimCat c₁ l).map keyOf).Disjoint ((trimCat c₂ l).map keyOf) := by
    intro c₁ c₂ hne k hk1 hk2
    exact hne ((trimCat_key_snd hk1).symm.trans (trimCat_key_snd hk2))
  have n1 := trimCat_keys_nodup h "For You"
  have n2 := trimCat_keys_nodup h "News"
  have n3 := trimCat_keys_nodup h "Entertainment"
  have n4 := trimCat_keys_nodup h "Sports"
  have n34 := n3.append n4 (d _ _ (by decide))
  have n234 : ((trimCat "News" l).map keyOf ++
      ((trimCat "Entertainment" l).map keyOf ++
        (trimCat "Sports" l).map keyOf)).Nodup := by
    refine n2.append n34 ?_
    rw [List.disjoint_append_right]
    exact ⟨d _ _ (by decide), d _ _ (by decide)⟩
  have n1234 : ((trimCat "For You" l).map keyOf ++
      ((trimCat "News" l).map keyOf ++
        ((trimCat "Entertainment" l).map keyOf ++
          (trimCat "Sports" l).map keyOf))).Nodup := by
    refine n1.append n234 ?_
    rw [List.disjoint_append_right, List.disjoint_append_right]
    exact ⟨d _ _ (by decide), d _ _ (by decide), d _ _ (by decide)⟩
  simpa [assemble, List.map_append, List.append_assoc] using n1234

/-- Shared helper: the merge output never carries two records with the same
dedup key. -/
theorem merge_keys_nodup (existing incoming : List Trend) :
    ((mergeTrends existing incoming).map keyOf).Nodup :=
  assemble_keys_nodup (survivors_keys_nodup existing incoming)

/-! ### Dedupe is the identity on key-distinct input -/

theorem foldl_dedupeInsert_fresh :
    ∀ (l : List Trend) (m : List ((String × String) × Trend)),
      (l.map keyOf).Nodup →
      (∀ s ∈ l, ∀ p ∈ m, p.1 ≠ keyOf s) →
      l.foldl dedupeInsert m = m ++ l.map (fun t => (keyOf t, t))
  | [], m, _, _ => by simp
  | t :: ts, m, hnd, hfresh => by
      have hany : m.any (fun p => p.1 = keyOf t) = false := by
        refine Bool.eq_false_iff.mpr fun hc => ?_
        rcases List.any_eq_true.mp hc with ⟨p, hp, hpt⟩
        exact hfresh t (List.mem_cons_self _ _) p hp (by simpa using hpt)
      have hcons : (keyOf t :: ts.map keyOf).Nodup := by simpa using hnd
      have hnotin : keyOf t ∉ ts.map keyOf := (List.nodup_cons.mp hcons).1
      have hnd' := (List.nodup_cons.mp hcons).2
      have hfresh' : ∀ s ∈ ts, ∀ p ∈ m ++ [(keyOf t, t)], p.1 ≠ keyOf s := by
        intro s hs p hp
        rcases List.mem_append.mp hp with hp' | hp'
        · exact hfresh s (List.mem_cons_of_mem _ hs) p hp'
        · simp only [List.mem_singleton] at hp'
          subst hp'
          intro he
          have : keyOf t = keyOf s := he
          exact hnotin (this ▸ List.mem_map_of_mem keyOf hs)
      rw [List.foldl_cons,
        show dedupeInsert m t = m ++ [(keyOf t, t)] from by simp [dedupeInsert, hany],
        foldl_dedupeInsert_fresh ts (m ++ [(keyOf t, t)]) hnd' hfresh']
      simp

/-- Feeding a key-distinct trend list back through the dedupe loop changes
nothing. -/
theorem survivors_self {l : List Trend} (h : (l.map keyOf).Nodup) :
    survivors l [] = l := by
  rw [survivors, List.append_nil, dedupe,
    foldl_dedupeInsert_fresh l [] h (by simp)]
  simp [Function.comp_def]

/-! ### The merge output is stable under re-merging -/

theorem trendLt_asymm (a b : Trend) : trendLt a b = true → trendLt b a = false :=
  strLt_asymm

theorem trendLt_false_trans (a b c : Trend) :
    trendLt a b = false → trendLt b c = false → trendLt a c = false :=
  strLt_false_trans

theorem trimCat_pairwise (c : String) (l : List Trend) :
    (trimCat c l).Pairwise (fun a b => trendLt a b = false) :=
  List.Pairwise.sublist (List.take_sublist _ _)
    (sortDescBy_pairwise trendLt_asymm trendLt_false_trans (perCat c l))

theorem trimCat_cat (c : String) (l : List Trend) :
    ∀ t ∈ trimCat c l, catOf t = c :=
  fun _ ht => (mem_trimCat ht).2

theorem perCat_append (c : String) (x y : List Trend) :
    perCat c (x ++ y) = perCat c x ++ perCat c y :=
  List.filter_append _ _

theorem perCat_eq_of_all {c : String} {x : List Trend}
    (h : ∀ t ∈ x, catOf t = c) : perCat c x = x :=
  List.filter_eq_self.mpr fun t ht => by simp [h t ht]

theorem perCat_nil_of_all {c c' : String} (hne : c' ≠ c) {x : List Trend}
    (h : ∀ t ∈ x, catOf t = c') : perCat c x = [] := by
  rw [perCat, List.filter_eq_nil_iff]
  intro t ht
  simp [h t ht, hne]

theorem perCat_assemble {c : String} (hc : c ∈ knownCats) (l : List Trend) :
    perCat c (assemble l) = trimCat c l := by
  have h4 : c = "For You" ∨ c = "News" ∨ c = "Entertainment" ∨ c = "Sports" := by
    simpa [knownCats] using hc
  rcases h4 with rfl | rfl | rfl | rfl <;>
    rw [assemble, perCat_append, perCat_append, perCat_append] <;>
    rw [perCat_eq_of_all (trimCat_cat _ l)] <;>
    rw [perCat_nil_of_all (by decide) (trimCat_cat _ l),
      perCat_nil_of_all (by decide) (trimCat_cat _ l),
      perCat_nil_of_all (by decide) (trimCat_cat _ l)] <;>
    simp

theorem trimCat_assemble {c : String} (hc : c ∈ knownCats) (l : List Trend) :
    trimCat c (assemble l) = trimCat c l := by
  rw [trimCat, perCat_assemble hc, sortDescBy_of_pairwise (trimCat_pairwise c l),
    trimCat, List.take_take]
  simp

theorem assemble_assemble (l : List Trend) :
    assemble (assemble l) = assemble l := by
  conv_lhs => rw [assemble]
  rw [trimCat_assemble (by decide) l, trimCat_assemble (by decide) l,
    trimCat_assemble (by decide) l, trimCat_assemble (by decide) l]
  rfl

/-! ### Collision resolution on a single key -/

theorem capOf_pos (c : String) : 1 ≤ capOf c := by
  rw [capOf]
  split <;> omega

theorem dedupe_pair {t1 t2 : Trend} (h : keyOf t1 = keyOf t2) :
    dedupe [t1, t2] =
      [(keyOf t1, if strLt (tsOf t1) (tsOf t2) then t2 else t1)] := by
  have h1 : dedupeInsert [] t1 = [(keyOf t1, t1)] := by simp [dedupeInsert]
  have hany : [(keyOf t1, t1)].any (fun p => p.1 = keyOf t2) = true := by
    simp [h]
  simp [dedupe, h1, dedupeInsert, hany, updateAt, h, apply_ite]

theorem survivors_pair {t1 t2 : Trend} (h : keyOf t1 = keyOf t2) :
    survivors [t1] [t2] = [if strLt (tsOf t1) (tsOf t2) then t2 else t1] := by
  have : ([t1] ++ [t2] : List Trend) = [t1, t2] := rfl
  rw [survivors, this, dedupe_pair h]
  simp [apply_ite]

theorem trimCat_single (c : String) (w : Trend) :
    trimCat c [w] = if catOf w = c then [w] else [] := by
  by_cases h : catOf w = c
  · have hlen : ([w] : List Trend).length ≤ capOf c := capOf_pos c
    simp [trimCat, perCat, h, sortDescBy, insertDescBy,
      List.take_of_length_le hlen]
  · simp [trimCat, perCat, h, sortDescBy]

theorem assemble_single {w : Trend} (hw : catOf w ∈ knownCats) :
    assemble [w] = [w] := by
  have h4 : catOf w = "For You" ∨ catOf w = "News" ∨
      catOf w = "Entertainment" ∨ catOf w = "Sports" := by
    simpa [knownCats] using hw
  rcases h4 with h | h | h | h <;> simp [assemble, trimCat_single, h]

/-- C2: on a key collision the later timestamp (first_seen_at, falling back
to updated_at) wins with all its fields and an exact tie keeps the
existing-side incumbent: `merge([t1],[t2])` with equal keys is `[t2]` iff
t2's timestamp is strictly greater and `[t1]` otherwise. -/
theorem merge_collision_newer_wins (t1 t2 : Trend)
    (hkey : keyOf t1 = keyOf t2) (hcat : catOf t1 ∈ knownCats) :
    mergeTrends [t1] [t2] = [if strLt (tsOf t1) (tsOf t2) then t2 else t1] := by
  have hw : catOf (if strLt (tsOf t1) (tsOf t2) then t2 else t1) = catOf t1 := by
    split
    · exact (congrArg Prod.snd hkey).symm
    · rfl
  rw [mergeTrends, survivors_pair hkey, assemble_single (by rwa [hw])]

/-- Witness for C2 at the spec's Newer-wins example: existing
2024-01-01, incoming 2024-01-02, equal keys, category "News". -/
theorem merge_collision_newer_wins_witness :
    keyOf exT1 = keyOf exT2 ∧ catOf exT1 ∈ knownCats ∧
      mergeTrends [exT1] [exT2] =
        [if strLt (tsOf exT1) (tsOf exT2) then exT2 else exT1] :=
  ⟨by decide, by decide, merge_collision_newer_wins exT1 exT2 (by decide) (by decide)⟩

/-- C1 (counterexample): keywords "US Open" and "U.S. Open" agree under the
spec Normalizer's `normalize` but the merge block keys on trim-and-lowercase
only, so its output keeps both records and the claimed invariant fails. -/
theorem merge_dedup_spec_key_violated :
    ¬ (mergeTrends [] [exUS1, exUS2]).Pairwise
        (fun a b => specIdentityKey a ≠ specIdentityKey b) := by decide

/-- C1 (amended): with the identity key actually used by the merge block —
`((keyword or "").strip().lower(), category or "")` — no two records of any
merge output share a key. -/
theorem merge_dedup_code_key (existing incoming : List Trend) :
    (mergeTrends existing incoming).Pairwise
      (fun a b => keyOf a ≠ keyOf b) :=
  List.pairwise_map.mp (merge_keys_nodup existing incoming)

/-- C10: merging with an empty incoming batch is stable under repetition —
re-running dedupe, per-category sort and cap on the merge's own output
changes nothing. -/
theorem merge_empty_incoming_idempotent (X : List Trend) :
    mergeTrends (mergeTrends X []) [] = mergeTrends X [] := by
  have h1 : mergeTrends (mergeTrends X []) [] =
      assemble (survivors (mergeTrends X []) []) := rfl
  rw [h1, survivors_self (merge_keys_nodup X []), mergeTrends,
    assemble_assemble]

/-! ### Membership in the assembled result -/

theorem mem_trimCat_of_within_cap {t : Trend} {c : String} {l : List Trend}
    (h : t ∈ perCat c l) (hlen : (perCat c l).length ≤ capOf c) :
    t ∈ trimCat c l := by
  have hperm := sortDescBy_perm trendLt (perCat c l)
  have hlen' : (sortDescBy trendLt (perCat c l)).length ≤ capOf c := by
    rwa [hperm.length_eq]
  rw [trimCat, List.take_of_length_le hlen']
  exact mem_sortDescBy.mpr h

theorem mem_assemble_of_trimCat {t : Trend} {c : String} {l : List Trend}
    (hc : c ∈ knownCats) (h : t ∈ trimCat c l) : t ∈ assemble l := by
  have h4 : c = "For You" ∨ c = "News" ∨ c = "Entertainment" ∨
      c = "Sports" := by simpa [knownCats] using hc
  rcases h4 with rfl | rfl | rfl | rfl <;>
    simp only [assemble, List.mem_append] <;> tauto

/-- C3 (counterexample): a key-surviving trend whose category is the spec
enum's "Trending" is within every cap yet never reaches the merge result:
the partition only materialises the four preset buckets. -/
theorem merge_drops_unknown_category :
    exTrending ∈ survivors [] [exTrending] ∧
    (perCat (catOf exTrending) (survivors [] [exTrending])).length ≤
      capOf (catOf exTrending) ∧
    exTrending ∉ mergeTrends [] [exTrending] := by decide

/-- C3 (amended): the merge result partitions survivors of the four preset
categories "For You", "News", "Entertainment", "Sports" only: a survivor of
a known category whose bucket is within cap always appears, and every
record of the result carries a known category (survivors of any other
category, e.g. "Trending", are dropped). -/
theorem merge_partition_known_categories :
    (∀ existing incoming t, t ∈ survivors existing incoming →
        catOf t ∈ knownCats →
        (perCat (catOf t) (survivors existing incoming)).length ≤
          capOf (catOf t) →
        t ∈ mergeTrends existing incoming) ∧
    (∀ existing incoming t, t ∈ mergeTrends existing incoming →
        catOf t ∈ knownCats) := by
  constructor
  · intro e i t ht hc hlen
    have h1 : t ∈ perCat (catOf t) (survivors e i) := mem_perCat.mpr ⟨ht, rfl⟩
    exact mem_assemble_of_trimCat hc (mem_trimCat_of_within_cap h1 hlen)
  · intro e i t ht
    have ht' : t ∈ trimCat "For You" (survivors e i) ∨
        t ∈ trimCat "News" (survivors e i) ∨
        t ∈ trimCat "Entertainment" (survivors e i) ∨
        t ∈ trimCat "Sports" (survivors e i) := by
      simpa [mergeTrends, assemble, List.mem_append, or_assoc] using ht
    rcases ht' with h | h | h | h <;> rw [(mem_trimCat h).2] <;> decide

/-- Witness for C3 (amended) at a within-cap "News" survivor. -/
theorem merge_partition_known_categories_witness :
    exT1 ∈ survivors [] [exT1] ∧ catOf exT1 ∈ knownCats ∧
      (perCat (catOf exT1) (survivors [] [exT1])).length ≤ capOf (catOf exT1) ∧
      exT1 ∈ mergeTrends [] [exT1] :=
  ⟨by decide, by decide, by decide,
    merge_partition_known_categories.1 [] [exT1] exT1 (by decide) (by decide)
      (by decide)⟩

/-! ### The per-category cap invariant -/

theorem filter_cat_trimCat_le (l : List Trend) (c' c : String) :
    ((trimCat c' l).filter (fun t => catOf t = c)).length ≤
      if c = c' then capOf c' else 0 := by
  by_cases h : c = c'
  · subst h
    rw [if_pos rfl]
    calc ((trimCat c l).filter (fun t => catOf t = c)).length
        ≤ (trimCat c l).length := List.length_filter_le _ _
      _ ≤ capOf c := by rw [trimCat]; exact List.length_take_le _ _
  · rw [if_neg h]
    have hnil : (trimCat c' l).filter (fun t => catOf t = c) = [] := by
      rw [List.filter_eq_nil_iff]
      intro t ht
      simp [trimCat_cat c' l t ht, Ne.symm h]
    simp [hnil]

/-- C4: every merge output holds at most 3 records of category "For You"
and at most 12 records of any other category value. -/
theorem merge_category_cap (existing incoming : List Trend) (c : String) :
    ((mergeTrends existing incoming).filter (fun t => catOf t = c)).length ≤
      capOf c := by
  have hsplit : (mergeTrends existing incoming).filter (fun t => catOf t = c) =
      (trimCat "For You" (survivors existing incoming)).filter
          (fun t => catOf t = c) ++
        ((trimCat "News" (survivors existing incoming)).filter
            (fun t => catOf t = c) ++
          ((trimCat "Entertainment" (survivors existing incoming)).filter
              (fun t => catOf t = c) ++
            (trimCat "Sports" (survivors existing incoming)).filter
              (fun t => catOf t = c))) := by
    simp [mergeTrends, assemble, List.filter_append, List.append_assoc]
  have b1 := filter_cat_trimCat_le (survivors existing incoming) "For You" c
  have b2 := filter_cat_trimCat_le (survivors existing incoming) "News" c
  have b3 := filter_cat_trimCat_le (survivors existing incoming) "Entertainment" c
  have b4 := filter_cat_trimCat_le (survivors existing incoming) "Sports" c
  rw [hsplit]
  simp only [List.length_append]
  by_cases h1 : c = "For You"
  · subst h1
    rw [if_pos rfl] at b1
    rw [if_neg (by decide)] at b2
    rw [if_neg (by decide)] at b3
    rw [if_neg (by decide)] at b4
    have hc : capOf "For You" = 3 := by decide
    rw [hc] at b1 ⊢
    omega
  · by_cases h2 : c = "News"
    · subst h2
      rw [if_pos rfl] at b2
      rw [if_neg (by decide)] at b1
      rw [if_neg (by decide)] at b3
      rw [if_neg (by decide)] at b4
      have hc : capOf "News" = 12 := by decide
      rw [hc] at b2 ⊢
      omega
    · by_cases h3 : c = "Entertainment"
      · subst h3
        rw [if_pos rfl] at b3
        rw [if_neg (by decide)] at b1
        rw [if_neg (by decide)] at b2
        rw [if_neg (by decide)] at b4
        have hc : capOf "Entertainment" = 12 := by decide
        rw [hc] at b3 ⊢
        omega
      · by_cases h4 : c = "Sports"
        · subst h4
          rw [if_pos rfl] at b4
          rw [if_neg (by decide)] at b1
          rw [if_neg (by decide)] at b2
          rw [if_neg (by decide)] at b3
          have hc : capOf "Sports" = 12 := by decide
          rw [hc] at b4 ⊢
          omega
        · rw [if_neg h1] at b1
          rw [if_neg h2] at b2
          rw [if_neg h3] at b3
          rw [if_neg h4] at b4
          have hc : capOf c = 12 := by rw [capOf, if_neg h1]
          rw [hc]
          omega

/-! ### The purge endpoint -/

theorem filter_not_in_take :
    ∀ (rows : List Trend) (k : Nat), (rows.map Trend.id).Nodup →
      rows.filter (fun t => !(((rows.take k).map Trend.id).contains t.id)) =
        rows.drop k
  | [], k, _ => by simp
  | _ :: _, 0, _ => by simp
  | r :: rs, k + 1, h => by
      have hcons : (r.id :: rs.map Trend.id).Nodup := by simpa using h
      have hnotin : r.id ∉ rs.map Trend.id := (List.nodup_cons.mp hcons).1
      have htail := (List.nodup_cons.mp hcons).2
      rw [List.take_succ_cons, List.drop_succ_cons]
      rw [List.filter_cons_of_neg (by simp)]
      have hcongr : rs.filter
            (fun t => !(((r :: rs.take k).map Trend.id).contains t.id)) =
          rs.filter (fun t => !(((rs.take k).map Trend.id).contains t.id)) := by
        apply List.filter_congr
        intro t ht
        have hne : t.id ≠ r.id := by
          intro he
          exact hnotin (he ▸ List.mem_map_of_mem Trend.id ht)
        simp [hne]
      rw [hcongr, filter_not_in_take rs k htail]

/-- C8: purge keeps exactly the first `keep_latest` rows of the
descending-by-first_seen_at fetched sequence and deletes all the rest;
`keep_latest = 0` deletes every record and `keep_latest = length` deletes
none. -/
theorem purge_keeps_first_deletes_rest (rows : List Trend) (keep : Nat)
    (h : (rows.map Trend.id).Nodup) :
    purge_trends rows keep = (rows.take keep, rows.drop keep) ∧
    (purge_trends rows 0).2 = rows ∧
    (purge_trends rows rows.length).2 = [] := by
  refine ⟨?_, ?_, ?_⟩
  · exact congrArg (Prod.mk (rows.take keep)) (filter_not_in_take rows keep h)
  · exact filter_not_in_take rows 0 h
  · have h2 := filter_not_in_take rows rows.length h
    rw [List.drop_length] at h2
    exact h2

/-- Witness for C8 on two id-distinct rows with `keep_latest = 1`. -/
theorem purge_keeps_first_deletes_rest_witness :
    ([exRow1, exRow2].map Trend.id).Nodup ∧
      purge_trends [exRow1, exRow2] 1 = ([exRow1], [exRow2]) :=
  ⟨by decide, by
    have h := (purge_keeps_first_deletes_rest [exRow1, exRow2] 1 (by decide)).1
    simpa using h⟩

/-! ### The greedy assignment step -/

theorem addToFirst_eq_none {s : Story} :
    ∀ (cls : List (List Story)),
      addToFirst s cls = none ↔ firstMatchIdx s cls = none
  | [] => by simp [addToFirst, firstMatchIdx]
  | c :: cs => by
      by_cases h : matchesCluster s c = true
      · simp [addToFirst, firstMatchIdx, h]
      · have h' := Bool.eq_false_iff.mpr h
        simp [addToFirst, firstMatchIdx, h',
          addToFirst_eq_none cs]

theorem addToFirst_eq_some {s : Story} :
    ∀ {cls : List (List Story)} {i : Nat},
      firstMatchIdx s cls = some i →
      addToFirst s cls = some (cls.set i (cls.getD i [] ++ [s]))
  | [], i, h => by simp [firstMatchIdx] at h
  | c :: cs, i, h => by
      by_cases hm : matchesCluster s c = true
      · rw [firstMatchIdx, if_pos hm] at h
        injection h with h0
        subst h0
        simp [addToFirst, hm]
      · have hm' := Bool.eq_false_iff.mpr hm
        rw [firstMatchIdx, if_neg (by simp [hm'])] at h
        rcases Option.map_eq_some'.mp h with ⟨j, hj, hi⟩
        subst hi
        simp [addToFirst, hm', addToFirst_eq_some hj]

/-- C5: a story with a nonempty keyword set joins the first open cluster,
in cluster-creation order, whose representative — the cluster's first-added
member — shares at least two keywords with it, and otherwise opens a new
singleton cluster; on the spec's example the two Senate stories land in one
cluster and the championship story opens a separate one. -/
theorem cluster_greedy_first_match :
    (∀ (ss : List Story) (s : Story), (storyKw s).isEmpty = false →
      assignClusters (ss ++ [s]) =
        match firstMatchIdx s (assignClusters ss) with
        | some i =>
            (assignClusters ss).set i ((assignClusters ss).getD i [] ++ [s])
        | none => assignClusters ss ++ [[s]]) ∧
    assignClusters [exSen1, exSen2, exLocal] = [[exSen1, exSen2], [exLocal]] := by
  constructor
  · intro ss s hkw
    rw [assignClusters, List.foldl_append]
    show placeStory (List.foldl placeStory [] ss) s = _
    rw [show List.foldl placeStory [] ss = assignClusters ss from rfl]
    rw [placeStory, if_neg (by simp [hkw])]
    cases hfind : firstMatchIdx s (assignClusters ss) with
    | some i => rw [addToFirst_eq_some hfind]
    | none => rw [(addToFirst_eq_none _).mpr hfind]
  · decide

/-- Witness for C5 at the spec's overlap example: the second Senate story
joins the first Senate story's cluster. -/
theorem cluster_greedy_first_match_witness :
    (storyKw exSen2).isEmpty = false ∧
      assignClusters ([exSen1] ++ [exSen2]) =
        match firstMatchIdx exSen2 (assignClusters [exSen1]) with
        | some i =>
            (assignClusters [exSen1]).set i
              ((assignClusters [exSen1]).getD i [] ++ [exSen2])
        | none => assignClusters [exSen1] ++ [[exSen2]] :=
  ⟨by decide, cluster_greedy_first_match.1 [exSen1] exSen2 (by decide)⟩

/-- C9: the clustering pipeline is NOT exception-free on every input: two
stories that share two keywords but both lack `first_seen_at` form a kept
cluster whose `cluster_score` calls `max()` on an empty sequence, raising
`ValueError` (modelled by `none`); empty- and punctuation-only-headline
stories, by contrast, are skipped without error. -/
theorem clustering_raises_on_absent_timestamps :
    cluster_stories [exNone1, exNone2] = none ∧
    list_trending_topics 10 [exNone1, exNone2] = none ∧
    (storyKw exNone1).isEmpty = false ∧
    cluster_stories [exPunct, exNoHl] = some [] ∧
    list_trending_topics 10 [exPunct, exNoHl] = some [] := by decide

/-! ### Cluster members keep their original relative order -/

theorem addToFirst_mem {s : Story} :
    ∀ {cls cls' : List (List Story)}, addToFirst s cls = some cls' →
      ∀ d ∈ cls', d ∈ cls ∨ ∃ c ∈ cls, d = c ++ [s]
  | [], _, h => by simp [addToFirst] at h
  | c :: cs, cls', h => by
      by_cases hm : matchesCluster s c = true
      · simp only [addToFirst, hm, if_true] at h
        injection h with h'
        subst h'
        intro d hd
        rcases List.mem_cons.mp hd with rfl | hd'
        · exact Or.inr ⟨c, List.mem_cons_self _ _, rfl⟩
        · exact Or.inl (List.mem_cons_of_mem _ hd')
      · have hm' := Bool.eq_false_iff.mpr hm
        simp only [addToFirst, hm', Bool.false_eq_true, if_false] at h
        rcases Option.map_eq_some'.mp h with ⟨cs', hcs', rfl⟩
        intro d hd
        rcases List.mem_cons.mp hd with rfl | hd'
        · exact Or.inl (List.mem_cons_self _ _)
        · rcases addToFirst_mem hcs' d hd' with h1 | ⟨c0, hc0, rfl⟩
          · exact Or.inl (List.mem_cons_of_mem _ h1)
          · exact Or.inr ⟨c0, List.mem_cons_of_mem _ hc0, rfl⟩

theorem foldl_placeStory_sublist :
    ∀ (ss : List Story) (acc : List (List Story)) (pre : List Story),
      (∀ c ∈ acc, List.Sublist c pre) →
      ∀ c ∈ ss.foldl placeStory acc, List.Sublist c (pre ++ ss)
  | [], acc, pre, hacc => by simpa using hacc
  | s :: rest, acc, pre, hacc => by
      have hstep : ∀ d ∈ placeStory acc s, List.Sublist d (pre ++ [s]) := by
        intro d hd
        by_cases hkw : (storyKw s).isEmpty = true
        · rw [placeStory, if_pos hkw] at hd
          exact (hacc d hd).trans (List.sublist_append_left _ _)
        · rw [placeStory, if_neg hkw] at hd
          cases haf : addToFirst s acc with
          | some acc' =>
              rw [haf] at hd
              rcases addToFirst_mem haf d hd with h1 | ⟨c0, hc0, rfl⟩
              · exact (hacc d h1).trans (List.sublist_append_left _ _)
              · exact (hacc c0 hc0).append (List.Sublist.refl [s])
          | none =>
              rw [haf] at hd
              rcases List.mem_append.mp hd with h1 | h1
              · exact (hacc d h1).trans (List.sublist_append_left _ _)
              · simp only [List.mem_singleton] at h1
                subst h1
                exact List.sublist_append_right pre [s]
      intro c hc
      rw [List.foldl_cons] at hc
      have := foldl_placeStory_sublist rest (placeStory acc s) (pre ++ [s])
        hstep c hc
      simpa [List.append_assoc] using this

/-- Every cluster the greedy assignment builds lists its members in their
original relative input order: it is a sublist of the input batch. -/
theorem mem_assignClusters_sublist {ss : List Story} :
    ∀ c ∈ assignClusters ss, List.Sublist c ss := by
  have h := foldl_placeStory_sublist ss [] [] (by simp)
  simpa using h

theorem cluster_stories_eq_some {ss : List Story} {sorted : List (List Story)}
    (h : cluster_stories ss = some sorted) :
    sorted = sortDescBy clusterLt (keptClusters ss) ∧
    ∀ c ∈ sorted, c ∈ assignClusters ss ∧ 1 < c.length := by
  rw [cluster_stories] at h
  by_cases hall : (keptClusters ss).all (fun c => (clusterTs c).isSome) = true
  · rw [if_pos hall] at h
    injection h with h'
    subst h'
    refine ⟨rfl, ?_⟩
    intro c hc
    have hc' : c ∈ keptClusters ss := mem_sortDescBy.mp hc
    have := List.mem_filter.mp hc'
    exact ⟨this.1, by simpa using this.2⟩
  · rw [if_neg hall] at h
    cases h

/-- C6 (amended): the stories pooled into "Other News" are exactly the
members of the non-singleton clusters ranked below `limit_clusters`,
grouped cluster by cluster in rank order — not re-clustered — and each
cluster's members appear in their original relative order from the input
batch; across different pooled clusters the original interleaving is not
restored. -/
theorem other_bucket_grouped_by_cluster :
    ∀ (limit : Nat) (stories : List Story) (sorted : List (List Story)),
      cluster_stories (stories.filter (fun s => !s.is_breaking)) = some sorted →
      otherStoriesRaw limit sorted = (sorted.drop limit).flatten ∧
      ∀ c ∈ sorted.drop limit,
        List.Sublist c (stories.filter (fun s => !s.is_breaking)) ∧
          1 < c.length := by
  intro limit stories sorted h
  refine ⟨rfl, ?_⟩
  intro c hc
  have hmem := (cluster_stories_eq_some h).2 c (List.mem_of_mem_drop hc)
  exact ⟨mem_assignClusters_sublist c hmem.1, hmem.2⟩

/-- C6 (counterexample): with three interleaved clusters and
`limit_clusters = 1`, the "Other News" bucket emits a2 before b1 although
b1 precedes a2 in the input batch: the pooled stories are in cluster-major
order, not the batch's original relative order. -/
theorem other_news_not_in_batch_order :
    list_trending_topics 1 exBatch =
      some [clusterBucket [exC1, exC2, exC3],
        otherBucket [exA1, exA2, exB1, exB2]] ∧
    (otherBucket [exA1, exA2, exB1, exB2]).stories.map StorySummary.id =
      ["a1", "a2", "b1", "b2"] ∧
    ¬ List.Sublist
        ((otherBucket [exA1, exA2, exB1, exB2]).stories.map StorySummary.id)
        (exBatch.map Story.id) := by decide

/-- Witness for C6 (amended): on the interleaved batch the second-ranked
cluster is pooled with its members in input order. -/
theorem other_bucket_grouped_by_cluster_witness :
    List.Sublist [exA1, exA2] (exBatch.filter (fun s => !s.is_breaking)) ∧
      1 < ([exA1, exA2] : List Story).length :=
  (other_bucket_grouped_by_cluster 1 exBatch
      [[exC1, exC2, exC3], [exA1, exA2], [exB1, exB2]] (by decide)).2
    [exA1, exA2] (by decide)

/-! ### Display dedup inside every bucket -/

theorem dedupDisplayGo_sublist :
    ∀ {l : List Story} {seen : List String},
      List.Sublist (dedupDisplayGo seen l) l
  | [], _ => List.Sublist.refl []
  | s :: rest, seen => by
      by_cases h : seen.contains (displayKeyS s) = true
      · simp only [dedupDisplayGo, h, if_true]
        exact dedupDisplayGo_sublist.trans (List.sublist_cons_self s rest)
      · have h' := Bool.eq_false_iff.mpr h
        simp only [dedupDisplayGo, h', Bool.false_eq_true, if_false]
        exact List.Sublist.cons₂ s dedupDisplayGo_sublist

theorem dedupDisplayGo_spec :
    ∀ (l : List Story) (seen : List String) (s : Story),
      s ∈ dedupDisplayGo seen l →
      displayKeyS s ∉ seen ∧
        l.find? (fun x => displayKeyS x == displayKeyS s) = some s
  | [], _, s, h => by simp [dedupDisplayGo] at h
  | x :: rest, seen, s, h => by
      by_cases hx : seen.contains (displayKeyS x) = true
      · simp only [dedupDisplayGo, hx, if_true] at h
        obtain ⟨h1, h2⟩ := dedupDisplayGo_spec rest seen s h
        refine ⟨h1, ?_⟩
        have hne : (displayKeyS x == displayKeyS s) = false := by
          rw [beq_eq_false_iff_ne]
          intro he
          exact h1 (he ▸ (by simpa using hx : displayKeyS x ∈ seen))
        rw [List.find?_cons_of_neg _ (by simp [hne]), h2]
      · have hx' := Bool.eq_false_iff.mpr hx
        simp only [dedupDisplayGo, hx', Bool.false_eq_true, if_false] at h
        rcases List.mem_cons.mp h with rfl | h'
        · refine ⟨by simpa using hx', ?_⟩
          exact List.find?_cons_of_pos _ (by simp)
        · obtain ⟨h1, h2⟩ :=
            dedupDisplayGo_spec rest (displayKeyS x :: seen) s h'
          have hks : displayKeyS s ≠ displayKeyS x ∧ displayKeyS s ∉ seen := by
            constructor
            · intro he
              exact h1 (by rw [he]; exact List.mem_cons_self _ _)
            · exact fun hmem => h1 (List.mem_cons_of_mem _ hmem)
          refine ⟨hks.2, ?_⟩
          have hne : (displayKeyS x == displayKeyS s) = false := by
            rw [beq_eq_false_iff_ne]
            exact fun he => hks.1 he.symm
          rw [List.find?_cons_of_neg _ (by simp [hne]), h2]

theorem dedupDisplayGo_keys_nodup :
    ∀ (l : List Story) (seen : List String),
      ((dedupDisplayGo seen l).map displayKeyS).Nodup
  | [], _ => by simp [dedupDisplayGo]
  | x :: rest, seen => by
      by_cases hx : seen.contains (displayKeyS x) = true
      · simp only [dedupDisplayGo, hx, if_true]
        exact dedupDisplayGo_keys_nodup rest seen
      · have hx' := Bool.eq_false_iff.mpr hx
        simp only [dedupDisplayGo, hx', Bool.false_eq_true, if_false,
          List.map_cons]
        refine List.nodup_cons.mpr ⟨?_, dedupDisplayGo_keys_nodup rest _⟩
        intro hmem
        rcases List.mem_map.mp hmem with ⟨t, ht, hkt⟩
        have h1 := (dedupDisplayGo_spec rest (displayKeyS x :: seen) t ht).1
        exact h1 (by rw [hkt]; exact List.mem_cons_self _ _)

/-- Every bucket the endpoint emits carries display-deduplicated stories. -/
theorem bucket_stories_dedup {limit : Nat} {stories : List Story}
    {buckets : List Bucket}
    (h : list_trending_topics limit stories = some buckets) :
    ∀ b ∈ buckets, ∃ raw, b.stories = (dedupDisplay raw).map toSummary := by
  rw [list_trending_topics] at h
  by_cases hs : stories = []
  · rw [if_pos hs] at h
    injection h with h'
    subst h'
    intro b hb
    cases hb
  · rw [if_neg hs] at h
    simp only at h
    cases hcs : cluster_stories (stories.filter (fun s => !s.is_breaking)) with
    | none => rw [hcs] at h; cases h
    | some sorted =>
        rw [hcs] at h
        injection h with h'
        subst h'
        intro b hb
        rcases List.mem_append.mp hb with h1 | h1
        · rcases List.mem_append.mp h1 with h2 | h2
          · by_cases hbr : (stories.filter Story.is_breaking).isEmpty = true
            · rw [if_pos hbr] at h2
              cases h2
            · rw [if_neg hbr] at h2
              simp only [List.mem_singleton] at h2
              subst h2
              exact ⟨sortDescBy storyLt (stories.filter Story.is_breaking), rfl⟩
          · rcases List.mem_map.mp h2 with ⟨c, _, rfl⟩
            exact ⟨c, rfl⟩
        · by_cases hot : (otherStoriesRaw limit sorted).isEmpty = true
          · rw [if_pos hot] at h1
            cases h1
          · rw [if_neg hot] at h1
            simp only [List.mem_singleton] at h1
            subst h1
            exact ⟨otherStoriesRaw limit sorted, rfl⟩

/-- C7: within every bucket the endpoint emits (breaking, each primary
cluster, other), no two stories share the display key
`normalize(headline) ++ "::" ++ lowercased(source_name)`; the deduplication
keeps exactly the first occurrence of each key and silently drops later
ones. -/
theorem bucket_display_key_dedup :
    (∀ l : List Story, List.Sublist (dedupDisplay l) l ∧
      ∀ s ∈ dedupDisplay l,
        l.find? (fun x => displayKeyS x == displayKeyS s) = some s) ∧
    (∀ (limit : Nat) (stories : List Story) (buckets : List Bucket),
      list_trending_topics limit stories = some buckets →
      ∀ b ∈ buckets, ((b.stories).map displayKeySum).Nodup) := by
  constructor
  · intro l
    exact ⟨dedupDisplayGo_sublist,
      fun s hs => (dedupDisplayGo_spec l [] s hs).2⟩
  · intro limit stories buckets h b hb
    obtain ⟨raw, hraw⟩ := bucket_stories_dedup h b hb
    rw [hraw, List.map_map]
    exact dedupDisplayGo_keys_nodup raw []

/-- Witness for C7: two stories with the same normalized headline and same
trimmed lowercased source collapse to one entry in their cluster bucket. -/
theorem bucket_display_key_dedup_witness :
    ((clusterBucket [exDup1, exDup2]).stories.map displayKeySum).Nodup :=
  bucket_display_key_dedup.2 10 [exDup1, exDup2]
    [clusterBucket [exDup1, exDup2]] (by decide) _ (List.mem_singleton_self _)

end Rush
